import Mathlib

/-!
Verification development for the local Burg AR filter and zero-mask detector
drivers (`src/bench/src/lcc/burg2.py`, `src/bench/src/tp/zeromask.py`).

The numerical cores (`LocalBurgFilter`, `ZeroMask`, the smoothing engine and
`ImageStore`) live in library code outside the repository snapshot; they are
modelled here from the specification.  Samples are modelled as rationals, so
floating-point identities that the spec describes as exact algebraic
identities become exact equalities.  Grids are lists of traces (the recursion
axis is the fastest-varying dimension, i.e. runs along each inner list).
-/

/-- A 2-D grid of samples: a list of traces, each a list of samples. -/
abbrev Grid := List (List ℚ)

/-- A per-pixel coefficient field: for each trace, for each pixel, the list of
AR coefficients at that pixel. -/
abbrev CoeffField := List (List (List ℚ))

/-- Modelled from the spec: sample of trace `x` at lag `k` behind position `i`;
samples before the start of the trace are treated as zero (the zero-padding
boundary rule, applied identically in the forward and inverse passes). -/
def lagSample (x : List ℚ) (i k : ℕ) : ℚ :=
  if k ≤ i then x.getD (i - k) 0 else 0

/-- Loop over the remaining coefficients of one pixel, the lag counter
starting at `k`: accumulates `c₁·x(i-k) + c₂·x(i-k-1) + ...`. -/
def predictFrom (a : List ℚ) (x : List ℚ) (i k : ℕ) : ℚ :=
  match a with
  | [] => 0
  | c :: rest => c * lagSample x i k + predictFrom rest x i (k + 1)

/-- Modelled from the spec: the AR prediction `Σ_{k=1..p} a_k(x)·grid(x−k)`
at position `i` of a trace, using the local coefficients `a`. -/
def predictAt (a : List ℚ) (x : List ℚ) (i : ℕ) : ℚ :=
  predictFrom a x i 1

/-- Modelled from the spec: forward (whitening) pass on one trace, with the
per-pixel coefficient lists `c`: the residual at every position. -/
def forwardTrace (c : List (List ℚ)) (x : List ℚ) : List ℚ :=
  (List.range x.length).map (fun i => x.getD i 0 - predictAt (c.getD i []) x i)

/-- First `n` samples of the inverse (synthesis) pass on one trace: each
reconstructed sample depends only on already-reconstructed predecessors. -/
def inverseTraceAux (c : List (List ℚ)) (r : List ℚ) : ℕ → List ℚ
  | 0 => []
  | n + 1 =>
    let ys := inverseTraceAux c r n
    ys ++ [r.getD n 0 + predictAt (c.getD n []) ys n]

/-- Modelled from the spec: inverse (synthesis) pass on one trace, run
sequentially in scan order with the same stored coefficients. -/
def inverseTrace (c : List (List ℚ)) (r : List ℚ) : List ℚ :=
  inverseTraceAux c r r.length

/-- Modelled from the spec: `LocalBurgFilter.applyForward` — the order-`p`
prediction residual at every pixel, along the recursion axis of each trace. -/
def applyForward (cf : CoeffField) (g : Grid) : Grid :=
  (List.range g.length).map (fun j => forwardTrace (cf.getD j []) (g.getD j []))

/-- Modelled from the spec: `LocalBurgFilter.applyInverse` — reconstructs the
signal from the residual with the same stored coefficient field. -/
def applyInverse (cf : CoeffField) (r : Grid) : Grid :=
  (List.range r.length).map (fun j => inverseTrace (cf.getD j []) (r.getD j []))

/-- Index into a trace of length `n`, clamped to the valid range (replication
padding at the boundaries, so a constant signal stays constant there). -/
def clampIdx (n : ℕ) (i : ℤ) : ℕ :=
  if i < 0 then 0 else min i.toNat (n - 1)

/-- Sample of a trace at a possibly out-of-range position, with replication
padding. -/
def getClamped (x : List ℚ) (i : ℤ) : ℚ :=
  x.getD (clampIdx x.length i) 0

/-- Half-width of the smoothing window for scale `σ` (at least one sample). -/
def kernelRadius (σ : ℚ) : ℕ :=
  (max 1 ⌈σ⌉).toNat

/-- Modelled from the spec: a Gaussian-like, zero-lag symmetric smoothing
kernel of half-width `r`, realised as nonnegative triangular weights. -/
def kernelWeight (r : ℕ) (j : ℤ) : ℚ :=
  max 0 ((r : ℚ) + 1 - |(j : ℚ)|)

/-- Total mass of the smoothing kernel, used to normalise to unit gain. -/
def kernelNorm (r : ℕ) : ℚ :=
  ∑ j ∈ Finset.Icc (-(r : ℤ)) (r : ℤ), kernelWeight r j

/-- Modelled from the spec: `LocalStatisticsEngine.smooth` along one trace —
a normalised, symmetric, separable low-pass pass of scale `σ`. -/
def smoothTrace (σ : ℚ) (x : List ℚ) : List ℚ :=
  (List.range x.length).map (fun i : ℕ =>
    (∑ j ∈ Finset.Icc (-(kernelRadius σ : ℤ)) (kernelRadius σ : ℤ),
      kernelWeight (kernelRadius σ) j * getClamped x ((i : ℤ) + j))
      / kernelNorm (kernelRadius σ))

/-- Sample `i` of trace `j` of a grid, the trace index clamped (replication
padding across the trace axis). -/
def colSample (h : Grid) (j : ℤ) (i : ℕ) : ℚ :=
  (h.getD (clampIdx h.length j) []).getD i 0

/-- Smoothing pass across traces (the second axis of the separable kernel). -/
def smoothCols (σ : ℚ) (h : Grid) : Grid :=
  (List.range h.length).map (fun j : ℕ =>
    (List.range ((h.getD j []).length)).map (fun i : ℕ =>
      (∑ k ∈ Finset.Icc (-(kernelRadius σ : ℤ)) (kernelRadius σ : ℤ),
        kernelWeight (kernelRadius σ) k * colSample h ((j : ℤ) + k) i)
        / kernelNorm (kernelRadius σ)))

/-- Modelled from the spec: `LocalStatisticsEngine.smooth` on a grid —
separable smoothing, first along each trace, then across traces. -/
def smooth (σ : ℚ) (g : Grid) : Grid :=
  smoothCols σ (g.map (smoothTrace σ))

/-- Pointwise magnitude of a grid. -/
def absGrid (g : Grid) : Grid :=
  g.map (fun row => row.map (fun v => |v|))

/-- Modelled from the spec: `ZeroMaskDetector.compute` — smoothed local
magnitude at scale `σ1`, compared against `max(absTol, relTol · localScale)`
where `localScale` is a broader smoothing (scale `σ2`) of the magnitude
field; `1` marks samples judged near zero. -/
def zeroMask (g : Grid) (relTol absTol σ1 σ2 : ℚ) : Grid :=
  (List.range g.length).map (fun j : ℕ =>
    (List.range ((g.getD j []).length)).map (fun i : ℕ =>
      if ((smooth σ1 (absGrid g)).getD j []).getD i 0
          < max absTol
              (relTol * (((smooth σ2 (smooth σ1 (absGrid g))).getD j []).getD i 0))
      then 1 else 0))

/-- Number of samples flagged as near-zero (each mask entry is 0 or 1). -/
def maskCount (m : Grid) : ℚ :=
  (m.map List.sum).sum

/-- Modelled from the spec: product of a trace with its lag-`ℓ` shift, missing
samples taken as zero; the smoothed version gives the local autocorrelation. -/
def lagProduct (ℓ : ℕ) (g : Grid) : Grid :=
  g.map (fun row =>
    (List.range row.length).map (fun i : ℕ => row.getD i 0 * lagSample row i ℓ))

/-- Modelled from the spec: `LocalStatisticsEngine.localAutocorrelation` —
for each lag `0..maxLag`, the spatially smoothed lagged product. -/
def localAutocorrelation (g : Grid) (maxLag : ℕ) (σ : ℚ) : List Grid :=
  (List.range (maxLag + 1)).map (fun ℓ : ℕ => smooth σ (lagProduct ℓ g))

/-- Modelled from the spec: stabilisation of a reflection coefficient —
a value of magnitude ≥ 1 is clipped to ±0.999; estimation never aborts. -/
def clipKappa (t : ℚ) : ℚ :=
  if 1 ≤ t then 999 / 1000 else if t ≤ -1 then -(999 / 1000) else t

/-- State of the per-pixel Burg/Levinson recursion: forward coefficients `a`,
backward coefficients `b`, prediction-error energy `e`, and the reflection
coefficients `ks` produced so far. -/
structure PixelBurg where
  a : List ℚ
  b : List ℚ
  e : ℚ
  ks : List ℚ
deriving DecidableEq

/-- Numerator of the order-`k` reflection coefficient from the local
autocorrelation values `rs`: `r_k − Σ_{j=1..k-1} a_j · r_{k−j}`. -/
def levinsonNum (a : List ℚ) (rs : List ℚ) (k : ℕ) : ℚ :=
  rs.getD k 0 - predictFrom a rs k 1

/-- Modelled from the spec: one order of the Burg recursion — a clipped
reflection coefficient `κ` and the Levinson-Durbin-style updates
`a ← a − κ·reverse b` and `b ← b − κ·reverse a`, each extended by `κ`. -/
def burgStep (rs : List ℚ) (s : PixelBurg) : PixelBurg :=
  { a := (List.zipWith (fun u v => u - clipKappa (levinsonNum s.a rs (s.a.length + 1) / s.e) * v)
        s.a s.b.reverse)
      ++ [clipKappa (levinsonNum s.a rs (s.a.length + 1) / s.e)]
    b := (List.zipWith (fun u v => u - clipKappa (levinsonNum s.a rs (s.a.length + 1) / s.e) * v)
        s.b s.a.reverse)
      ++ [clipKappa (levinsonNum s.a rs (s.a.length + 1) / s.e)]
    e := s.e * (1 - clipKappa (levinsonNum s.a rs (s.a.length + 1) / s.e)
        * clipKappa (levinsonNum s.a rs (s.a.length + 1) / s.e))
    ks := s.ks ++ [clipKappa (levinsonNum s.a rs (s.a.length + 1) / s.e)] }

/-- The Burg recursion at one pixel, run order-by-order up to `p`, from the
local autocorrelation values `rs` at that pixel. -/
def pixelBurg (rs : List ℚ) : ℕ → PixelBurg
  | 0 => { a := [], b := [], e := rs.getD 0 0, ks := [] }
  | p + 1 => burgStep rs (pixelBurg rs p)

/-- The local autocorrelation values of one pixel, across all lags. -/
def pixelAutocorr (ac : List Grid) (j i : ℕ) : List ℚ :=
  ac.map (fun m => (m.getD j []).getD i 0)

/-- Modelled from the spec: `LocalBurgFilter.estimateCoefficients` — the
forward and backward per-pixel coefficient fields of order `p`. -/
def estimateCoefficients (g : Grid) (p : ℕ) (σ : ℚ) : CoeffField × CoeffField :=
  ((List.range g.length).map (fun j : ℕ =>
      (List.range ((g.getD j []).length)).map (fun i : ℕ =>
        (pixelBurg (pixelAutocorr (localAutocorrelation g p σ) j i) p).a)),
   (List.range g.length).map (fun j : ℕ =>
      (List.range ((g.getD j []).length)).map (fun i : ℕ =>
        (pixelBurg (pixelAutocorr (localAutocorrelation g p σ) j i) p).b)))

/-- The per-pixel reflection coefficients produced during estimation. -/
def reflectionField (g : Grid) (p : ℕ) (σ : ℚ) : CoeffField :=
  (List.range g.length).map (fun j : ℕ =>
    (List.range ((g.getD j []).length)).map (fun i : ℕ =>
      (pixelBurg (pixelAutocorr (localAutocorrelation g p σ) j i) p).ks))

/-- Per-pixel forward/backward coefficient pairs along one trace, computed in
one fused pass. -/
def traceCoeffs (ac : List Grid) (p : ℕ) (j : ℕ) (row : List ℚ) :
    List (List ℚ × List ℚ) :=
  (List.range row.length).map (fun i : ℕ =>
    ((pixelBurg (pixelAutocorr ac j i) p).a, (pixelBurg (pixelAutocorr ac j i) p).b))

/-- Fused estimation and forward whitening on one trace. -/
def traceQ1 (ac : List Grid) (p : ℕ) (j : ℕ) (row : List ℚ) :
    List ℚ × List (List ℚ) × List (List ℚ) :=
  (forwardTrace ((traceCoeffs ac p j row).map Prod.fst) row,
   (traceCoeffs ac p j row).map Prod.fst,
   (traceCoeffs ac p j row).map Prod.snd)

/-- Modelled from the spec: `LocalBurgFilter.applyQ1` — the convenience
pipeline that returns the whitened residual together with the forward and
backward coefficient fields, computed trace by trace in a fused pass. -/
def applyQ1 (p : ℕ) (g : Grid) (σ : ℚ) : Grid × CoeffField × CoeffField :=
  (((List.range g.length).map (fun j : ℕ =>
      traceQ1 (localAutocorrelation g p σ) p j (g.getD j []))).map (fun t => t.1),
   ((List.range g.length).map (fun j : ℕ =>
      traceQ1 (localAutocorrelation g p σ) p j (g.getD j []))).map (fun t => t.2.1),
   ((List.range g.length).map (fun j : ℕ =>
      traceQ1 (localAutocorrelation g p σ) p j (g.getD j []))).map (fun t => t.2.2))

/-- Errors surfaced by the numerical core. -/
inductive FilterError where
  | InvalidParameter
  | StorageError
deriving DecidableEq

/-- Modelled from the spec: `smooth` with its parameter check — fails with
`InvalidParameter` exactly when σ ≤ 0. -/
def smoothChecked (g : Grid) (σ : ℚ) : Except FilterError Grid :=
  if σ ≤ 0 then Except.error FilterError.InvalidParameter
  else Except.ok (smooth σ g)

/-- Modelled from the spec: `localAutocorrelation` with its parameter checks —
fails with `InvalidParameter` exactly when σ ≤ 0 or maxLag < 0. -/
def localAutocorrelationChecked (g : Grid) (maxLag : ℤ) (σ : ℚ) :
    Except FilterError (List Grid) :=
  if σ ≤ 0 ∨ maxLag < 0 then Except.error FilterError.InvalidParameter
  else Except.ok (localAutocorrelation g maxLag.toNat σ)

/-- Number of samples along the recursion axis. -/
def axisLength (g : Grid) : ℕ :=
  (g.getD 0 []).length

/-- Modelled from the spec: `estimateCoefficients` with its parameter checks —
fails with `InvalidParameter` exactly when the order is non-positive or the
grid has fewer than `order+1` samples along the recursion axis. -/
def estimateCoefficientsChecked (g : Grid) (order : ℤ) (σ : ℚ) :
    Except FilterError (CoeffField × CoeffField) :=
  if order ≤ 0 ∨ axisLength g < order.toNat + 1 then
    Except.error FilterError.InvalidParameter
  else Except.ok (estimateCoefficients g order.toNat σ)

/-- Modelled from the spec: `applyQ1` with the same parameter checks as
estimation. -/
def applyQ1Checked (order : ℤ) (g : Grid) (σ : ℚ) :
    Except FilterError (Grid × CoeffField × CoeffField) :=
  if order ≤ 0 ∨ axisLength g < order.toNat + 1 then
    Except.error FilterError.InvalidParameter
  else Except.ok (applyQ1 order.toNat g σ)

/-- Trace count and per-trace sample counts of a grid. -/
def gridShape (g : Grid) : List ℕ :=
  g.map List.length

/-- Trace count and per-trace pixel counts of a coefficient field. -/
def coeffShape (cf : CoeffField) : List ℕ :=
  cf.map List.length

/-- Modelled from the spec: `applyForward` with its shape check — mismatched
shapes between the cooperating buffers fail with `InvalidParameter`. -/
def applyForwardChecked (cf : CoeffField) (g : Grid) : Except FilterError Grid :=
  if coeffShape cf ≠ gridShape g then Except.error FilterError.InvalidParameter
  else Except.ok (applyForward cf g)

/-- The buffers of the `doBurg` driver: the input image `x`, the residual `y`,
the two coefficient buffers `c1`, `c2`, the second residual `z`, and the
reconstruction `w`. -/
structure DriverState where
  x : Grid
  y : Grid
  c1 : CoeffField
  c2 : CoeffField
  z : Grid
  w : Grid
deriving DecidableEq

/-- The driver's `lbf.applyQ1(order,x,y,c1,c2)` call: writes only `y`, `c1`
and `c2`. -/
def applyQ1Step (p : ℕ) (σ : ℚ) (s : DriverState) : DriverState :=
  { s with y := (applyQ1 p s.x σ).1
           c1 := (applyQ1 p s.x σ).2.1
           c2 := (applyQ1 p s.x σ).2.2 }

/-- The driver's `lbf.applyForward(c1,c2,x,z)` call: writes only `z`. -/
def applyForwardStep (s : DriverState) : DriverState :=
  { s with z := applyForward s.c1 s.x }

/-- The driver's `lbf.applyInverse(c1,c2,z,w)` call: writes only `w`. -/
def applyInverseStep (s : DriverState) : DriverState :=
  { s with w := applyInverse s.c1 s.z }

/-- The three filter calls of the `doBurg` driver, in order. -/
def doBurg (p : ℕ) (σ : ℚ) (s : DriverState) : DriverState :=
  applyInverseStep (applyForwardStep (applyQ1Step p σ s))

/-- Modelled from the spec: `ImageStore.save` — a grid is persisted as the
row-major stream of its samples. -/
def writeImage (g : Grid) : List ℚ :=
  g.flatten

/-- Modelled from the spec: `ImageStore.load` — the sample stream is read back
into a grid of the configured dimensions `n1 × n2`. -/
def readImage (n1 n2 : ℕ) (d : List ℚ) : Grid :=
  (List.range n2).map (fun j : ℕ => (d.drop (j * n1)).take n1)

section ListLemmas

variable {α : Type*}

theorem getD_map_range (f : ℕ → α) {m n : ℕ} (d : α) (h : n < m) :
    ((List.range m).map f).getD n d = f n := by
  have hl : n < ((List.range m).map f).length := by simpa using h
  rw [List.getD_eq_getElem _ d hl]
  simp

theorem getD_take {l : List α} {m n : ℕ} (d : α) (h : n < m) :
    (l.take m).getD n d = l.getD n d := by
  by_cases hn : n < l.length
  · rw [List.getD_eq_getElem _ d (by simpa [lt_min_iff] using And.intro h hn),
      List.getD_eq_getElem _ d hn]
    simp
  · rw [List.getD_eq_default, List.getD_eq_default _ _ (by omega)]
    simp
    omega

theorem eq_map_range_getD (l : List α) (d : α) :
    (List.range l.length).map (fun j => l.getD j d) = l := by
  apply List.ext_getElem
  · simp
  · intro n h₁ h₂
    simp only [List.getElem_map, List.getElem_range]
    exact List.getD_eq_getElem _ d h₂

end ListLemmas

theorem forwardTrace_length (c : List (List ℚ)) (x : List ℚ) :
    (forwardTrace c x).length = x.length := by
  simp [forwardTrace]

theorem forwardTrace_getD (c : List (List ℚ)) (x : List ℚ) {n : ℕ}
    (h : n < x.length) :
    (forwardTrace c x).getD n 0 = x.getD n 0 - predictAt (c.getD n []) x n :=
  getD_map_range _ 0 h

theorem predictFrom_congr (a : List ℚ) (x ys : List ℚ) (i : ℕ)
    (hys : ∀ j, j < i → ys.getD j 0 = x.getD j 0) :
    ∀ k, 1 ≤ k → predictFrom a ys i k = predictFrom a x i k := by
  induction a with
  | nil => intro k _; rfl
  | cons c rest ih =>
    intro k hk
    have hlag : lagSample ys i k = lagSample x i k := by
      unfold lagSample
      by_cases hki : k ≤ i
      · simp only [hki, if_true]
        exact hys _ (by omega)
      · simp [hki]
    simp only [predictFrom, hlag]
    rw [ih (k + 1) (by omega)]

theorem inverseTraceAux_roundtrip (c : List (List ℚ)) (x : List ℚ) :
    ∀ n, n ≤ x.length →
      inverseTraceAux c (forwardTrace c x) n = x.take n := by
  intro n
  induction n with
  | zero => intro _; simp [inverseTraceAux]
  | succ m ih =>
    intro hm
    have hmx : m < x.length := by omega
    have hys := ih (by omega)
    have hpred : predictAt (c.getD m []) (x.take m) m
        = predictAt (c.getD m []) x m := by
      exact predictFrom_congr _ _ _ _ (fun j hj => getD_take 0 hj) 1 (le_refl 1)
    have hr : (forwardTrace c x).getD m 0
        = x.getD m 0 - predictAt (c.getD m []) x m := forwardTrace_getD c x hmx
    have hstep : x.take m ++ [x.getD m 0] = x.take (m + 1) := by
      rw [List.take_succ, List.getD_eq_getElem _ 0 hmx]
      simp [hmx]
    calc inverseTraceAux c (forwardTrace c x) (m + 1)
        = x.take m ++ [(forwardTrace c x).getD m 0
            + predictAt (c.getD m []) (x.take m) m] := by
          simp only [inverseTraceAux, hys]
      _ = x.take m ++ [x.getD m 0] := by rw [hpred, hr]; ring_nf
      _ = x.take (m + 1) := hstep

theorem inverseTrace_forwardTrace (c : List (List ℚ)) (x : List ℚ) :
    inverseTrace c (forwardTrace c x) = x := by
  unfold inverseTrace
  rw [forwardTrace_length, inverseTraceAux_roundtrip c x x.length (le_refl _),
    List.take_length]

/-- C1: Roundtrip identity — for every grid and every coefficient field,
`applyInverse` applied to the result of `applyForward` with the same
coefficient field reproduces the original grid exactly; in the rational model
this is the exact algebraic identity of the recursion pair that the spec
describes, holding for any coefficient field (hence any order `p`),
independent of how well the AR model fits. -/
theorem roundtrip_identity (cf : CoeffField) (g : Grid) :
    applyInverse cf (applyForward cf g) = g := by
  unfold applyInverse applyForward
  rw [List.length_map, List.length_range]
  have hrow : ∀ j ∈ List.range g.length,
      inverseTrace (cf.getD j [])
        (((List.range g.length).map
          (fun j => forwardTrace (cf.getD j []) (g.getD j []))).getD j [])
      = g.getD j [] := by
    intro j hj
    rw [getD_map_range _ [] (List.mem_range.mp hj)]
    exact inverseTrace_forwardTrace _ _
  rw [List.map_congr_left hrow]
  exact eq_map_range_getD g []

theorem map_range_const {α : Type*} (n : ℕ) (c : α) :
    (List.range n).map (fun _ => c) = List.replicate n c := by
  apply List.ext_getElem <;> simp

theorem getD_replicate' {α : Type*} {n i : ℕ} (c d : α) (h : i < n) :
    (List.replicate n c).getD i d = c := by
  rw [List.getD_eq_getElem _ d (by simpa using h)]
  simp

theorem kernelNorm_def (r : ℕ) :
    kernelNorm r = ∑ j ∈ Finset.Icc (-(r : ℤ)) (r : ℤ), kernelWeight r j := rfl

theorem kernelWeight_nonneg (r : ℕ) (j : ℤ) : 0 ≤ kernelWeight r j :=
  le_max_left 0 _

theorem kernelNorm_pos (r : ℕ) : 0 < kernelNorm r := by
  rw [kernelNorm_def]
  apply Finset.sum_pos' (fun j _ => kernelWeight_nonneg r j)
  refine ⟨0, by simp, ?_⟩
  have h1 : (0 : ℚ) < (r : ℚ) + 1 := by positivity
  calc (0 : ℚ) < (r : ℚ) + 1 := h1
    _ = (r : ℚ) + 1 - |((0 : ℤ) : ℚ)| := by simp
    _ ≤ kernelWeight r 0 := le_max_right 0 _

theorem getClamped_replicate (n : ℕ) (c : ℚ) (z : ℤ) (hn : 0 < n) :
    getClamped (List.replicate n c) z = c := by
  unfold getClamped clampIdx
  rw [List.length_replicate]
  split
  · exact getD_replicate' c 0 hn
  · exact getD_replicate' c 0 (lt_of_le_of_lt (min_le_right _ _) (by omega))

theorem smoothTrace_const (σ : ℚ) (n : ℕ) (c : ℚ) :
    smoothTrace σ (List.replicate n c) = List.replicate n c := by
  unfold smoothTrace
  rw [List.length_replicate]
  have h : ∀ i ∈ List.range n,
      (∑ j ∈ Finset.Icc (-(kernelRadius σ : ℤ)) (kernelRadius σ : ℤ),
        kernelWeight (kernelRadius σ) j
          * getClamped (List.replicate n c) ((i : ℤ) + j))
        / kernelNorm (kernelRadius σ) = c := by
    intro i hi
    have hn : 0 < n := lt_of_le_of_lt (Nat.zero_le i) (List.mem_range.mp hi)
    rw [Finset.sum_congr rfl
      (fun j _ => by rw [getClamped_replicate n c _ hn]),
      ← Finset.sum_mul, ← kernelNorm_def, mul_comm, mul_div_assoc,
      div_self (ne_of_gt (kernelNorm_pos _)), mul_one]
  rw [List.map_congr_left h, map_range_const]

theorem colSample_replicate (n2 n1 : ℕ) (c : ℚ) (z : ℤ) (i : ℕ)
    (hn2 : 0 < n2) (hi : i < n1) :
    colSample (List.replicate n2 (List.replicate n1 c)) z i = c := by
  unfold colSample
  rw [List.length_replicate]
  have h1 : clampIdx n2 z < n2 := by
    unfold clampIdx
    split
    · exact hn2
    · exact lt_of_le_of_lt (min_le_right _ _) (by omega)
  rw [getD_replicate' _ _ h1, getD_replicate' _ _ hi]

/-- C3: Smoothing identity on constants — for every constant grid and every
smoothing scale σ > 0, `smooth` maps the constant grid to itself exactly: the
kernel is zero-lag symmetric with unit gain, and replication padding keeps the
identity exact at the boundaries. -/
theorem smooth_const_grid (n1 n2 : ℕ) (c : ℚ) (σ : ℚ) (_h : 0 < σ) :
    smooth σ (List.replicate n2 (List.replicate n1 c))
      = List.replicate n2 (List.replicate n1 c) := by
  unfold smooth
  rw [List.map_replicate, smoothTrace_const]
  unfold smoothCols
  rw [List.length_replicate]
  have hrow : ∀ j ∈ List.range n2,
      (List.range (((List.replicate n2 (List.replicate n1 c)).getD j []).length)).map
        (fun i =>
          (∑ k ∈ Finset.Icc (-(kernelRadius σ : ℤ)) (kernelRadius σ : ℤ),
            kernelWeight (kernelRadius σ) k
              * colSample (List.replicate n2 (List.replicate n1 c)) ((j : ℤ) + k) i)
            / kernelNorm (kernelRadius σ))
      = List.replicate n1 c := by
    intro j hj
    have hn2 : 0 < n2 := lt_of_le_of_lt (Nat.zero_le j) (List.mem_range.mp hj)
    rw [getD_replicate' _ _ (List.mem_range.mp hj), List.length_replicate]
    have h : ∀ i ∈ List.range n1,
        (∑ k ∈ Finset.Icc (-(kernelRadius σ : ℤ)) (kernelRadius σ : ℤ),
          kernelWeight (kernelRadius σ) k
            * colSample (List.replicate n2 (List.replicate n1 c)) ((j : ℤ) + k) i)
          / kernelNorm (kernelRadius σ) = c := by
      intro i hi
      rw [Finset.sum_congr rfl
        (fun k _ => by
          rw [colSample_replicate n2 n1 c _ i hn2 (List.mem_range.mp hi)]),
        ← Finset.sum_mul, ← kernelNorm_def, mul_comm, mul_div_assoc,
        div_self (ne_of_gt (kernelNorm_pos _)), mul_one]
    rw [List.map_congr_left h, map_range_const]
  rw [List.map_congr_left hrow, map_range_const]

/-- Witness for C3 at a concrete constant grid and scale. -/
theorem smooth_const_grid_witness :
    (0 : ℚ) < 1 ∧ smooth 1 (List.replicate 2 (List.replicate 2 (3 : ℚ)))
      = List.replicate 2 (List.replicate 2 (3 : ℚ)) :=
  ⟨by norm_num, smooth_const_grid 2 2 3 1 (by norm_num)⟩

theorem getD_mem {α : Type*} (l : List α) (n : ℕ) (d : α) (h : n < l.length) :
    l.getD n d ∈ l := by
  rw [List.getD_eq_getElem _ d h]
  exact List.getElem_mem h

theorem clipKappa_bounds (t : ℚ) : -1 ≤ clipKappa t ∧ clipKappa t ≤ 1 := by
  unfold clipKappa
  split
  · norm_num
  · split
    · norm_num
    · rename_i h1 h2
      constructor <;> linarith [not_le.mp h1, not_le.mp h2]

theorem pixelBurg_ks_bounds (rs : List ℚ) :
    ∀ p κ, κ ∈ (pixelBurg rs p).ks → -1 ≤ κ ∧ κ ≤ 1 := by
  intro p
  induction p with
  | zero =>
    intro κ hκ
    simp [pixelBurg] at hκ
  | succ q ih =>
    intro κ hκ
    simp only [pixelBurg, burgStep, List.mem_append, List.mem_singleton] at hκ
    rcases hκ with h | h
    · exact ih κ h
    · rw [h]
      exact clipKappa_bounds _

/-- C2: Stability invariant — every reflection coefficient produced by the
estimation recursion (used by `estimateCoefficients` and `applyQ1`) lies in
`[-1, 1]`: an out-of-range value is recovered locally by clipping to ±0.999,
and the recursion is total, so estimation never aborts. -/
theorem reflection_stability (g : Grid) (p : ℕ) (σ : ℚ)
    (row : List (List ℚ)) (pix : List ℚ) (κ : ℚ)
    (hrow : row ∈ reflectionField g p σ) (hpix : pix ∈ row) (hκ : κ ∈ pix) :
    -1 ≤ κ ∧ κ ≤ 1 := by
  simp only [reflectionField] at hrow
  obtain ⟨j, _, hje⟩ := List.mem_map.mp hrow
  rw [← hje] at hpix
  obtain ⟨i, _, hie⟩ := List.mem_map.mp hpix
  rw [← hie] at hκ
  exact pixelBurg_ks_bounds _ p κ hκ

/-- Witness for C2 at a concrete grid, pixel and coefficient. -/
theorem reflection_stability_witness :
    -1 ≤ (((reflectionField [[1, 2]] 1 1).getD 0 []).getD 0 []).getD 0 0 ∧
    (((reflectionField [[1, 2]] 1 1).getD 0 []).getD 0 []).getD 0 0 ≤ 1 :=
  reflection_stability [[1, 2]] 1 1
    ((reflectionField [[1, 2]] 1 1).getD 0 [])
    (((reflectionField [[1, 2]] 1 1).getD 0 []).getD 0 [])
    ((((reflectionField [[1, 2]] 1 1).getD 0 []).getD 0 []).getD 0 0)
    (getD_mem _ 0 [] (by decide))
    (getD_mem _ 0 [] (by decide))
    (getD_mem _ 0 0 (by decide))

/-- C7: Mask monotonicity — increasing `absTol` while holding the grid,
`relTol`, σ1 and σ2 fixed never decreases the number of samples flagged as
near-zero, because the per-pixel threshold `max(absTol, relTol·localScale)`
is monotone in `absTol`. -/
theorem mask_monotone (g : Grid) (relTol absTol absTol' σ1 σ2 : ℚ)
    (h : absTol ≤ absTol') :
    maskCount (zeroMask g relTol absTol σ1 σ2)
      ≤ maskCount (zeroMask g relTol absTol' σ1 σ2) := by
  unfold maskCount zeroMask
  rw [List.map_map, List.map_map]
  apply List.sum_le_sum
  intro j _
  simp only [Function.comp_apply]
  apply List.sum_le_sum
  intro i _
  by_cases hc : ((smooth σ1 (absGrid g)).getD j []).getD i 0
      < max absTol
          (relTol * (((smooth σ2 (smooth σ1 (absGrid g))).getD j []).getD i 0))
  · rw [if_pos hc, if_pos (lt_of_lt_of_le hc (max_le_max h (le_refl _)))]
  · rw [if_neg hc]
    split <;> norm_num

/-- Witness for C7 at a concrete grid and tolerance pair. -/
theorem mask_monotone_witness :
    (0 : ℚ) ≤ 1 ∧
    maskCount (zeroMask [[0, 5]] (1/10) 0 1 1)
      ≤ maskCount (zeroMask [[0, 5]] (1/10) 1 1 1) :=
  ⟨by norm_num, mask_monotone [[0, 5]] (1/10) 0 1 1 1 (by norm_num)⟩

/-- C8: Mask range and shape — the mask has exactly the dimensions of the
source grid, and every sample of it lies in `[0, 1]` (here in `{0, 1}`, with
`1` marking samples judged near zero). -/
theorem mask_shape_range (g : Grid) (relTol absTol σ1 σ2 : ℚ)
    (row : List ℚ) (v : ℚ)
    (hrow : row ∈ zeroMask g relTol absTol σ1 σ2) (hv : v ∈ row) :
    (zeroMask g relTol absTol σ1 σ2).length = g.length ∧
    (∀ j : ℕ, ((zeroMask g relTol absTol σ1 σ2).getD j []).length
      = (g.getD j []).length) ∧
    0 ≤ v ∧ v ≤ 1 := by
  refine ⟨by simp [zeroMask], ?_, ?_⟩
  · intro j
    by_cases hj : j < g.length
    · unfold zeroMask
      rw [getD_map_range _ [] hj]
      simp
    · rw [List.getD_eq_default _ _ (by simp [zeroMask]; omega),
        List.getD_eq_default _ _ (by omega)]
  · simp only [zeroMask] at hrow
    obtain ⟨j, _, hje⟩ := List.mem_map.mp hrow
    rw [← hje] at hv
    obtain ⟨i, _, hie⟩ := List.mem_map.mp hv
    rw [← hie]
    constructor
    · split <;> norm_num
    · split <;> norm_num

/-- Witness for C8 at a concrete grid, row and sample. -/
theorem mask_shape_range_witness :
    (zeroMask [[0, 5]] (1/10) (1/100) 1 1).length = ([[0, 5]] : Grid).length ∧
    (∀ j : ℕ, ((zeroMask [[0, 5]] (1/10) (1/100) 1 1).getD j []).length
      = (([[0, 5]] : Grid).getD j []).length) ∧
    0 ≤ ((zeroMask [[0, 5]] (1/10) (1/100) 1 1).getD 0 []).getD 0 0 ∧
    ((zeroMask [[0, 5]] (1/10) (1/100) 1 1).getD 0 []).getD 0 0 ≤ 1 :=
  mask_shape_range [[0, 5]] (1/10) (1/100) 1 1
    ((zeroMask [[0, 5]] (1/10) (1/100) 1 1).getD 0 [])
    (((zeroMask [[0, 5]] (1/10) (1/100) 1 1).getD 0 []).getD 0 0)
    (getD_mem _ 0 [] (by decide))
    (getD_mem _ 0 0 (by decide))

theorem traceCoeffs_fst (ac : List Grid) (p : ℕ) (j : ℕ) (row : List ℚ) :
    (traceCoeffs ac p j row).map Prod.fst
      = (List.range row.length).map (fun i : ℕ =>
          (pixelBurg (pixelAutocorr ac j i) p).a) := by
  unfold traceCoeffs
  rw [List.map_map]
  rfl

theorem traceCoeffs_snd (ac : List Grid) (p : ℕ) (j : ℕ) (row : List ℚ) :
    (traceCoeffs ac p j row).map Prod.snd
      = (List.range row.length).map (fun i : ℕ =>
          (pixelBurg (pixelAutocorr ac j i) p).b) := by
  unfold traceCoeffs
  rw [List.map_map]
  rfl

/-- C5: applyQ1 decomposition — the fused `applyQ1` pipeline returns exactly
the triple `(applyForward C.fwd grid, C.fwd, C.bwd)` where `C` is the
coefficient pair produced by `estimateCoefficients` on the same grid, order
and scale; in particular its residual equals a subsequent `applyForward` call
with the coefficients it produced. -/
theorem applyQ1_decomposition (p : ℕ) (g : Grid) (σ : ℚ) :
    applyQ1 p g σ
      = (applyForward (estimateCoefficients g p σ).1 g,
         (estimateCoefficients g p σ).1,
         (estimateCoefficients g p σ).2) := by
  have hc1 : (estimateCoefficients g p σ).1
      = (List.range g.length).map (fun j : ℕ =>
          (List.range ((g.getD j []).length)).map (fun i : ℕ =>
            (pixelBurg (pixelAutocorr (localAutocorrelation g p σ) j i) p).a)) := rfl
  have hc2 : (estimateCoefficients g p σ).2
      = (List.range g.length).map (fun j : ℕ =>
          (List.range ((g.getD j []).length)).map (fun i : ℕ =>
            (pixelBurg (pixelAutocorr (localAutocorrelation g p σ) j i) p).b)) := rfl
  simp only [applyQ1, Prod.mk.injEq]
  refine ⟨?_, ?_, ?_⟩
  · rw [hc1]
    unfold applyForward
    rw [List.map_map]
    apply List.map_congr_left
    intro j hj
    simp only [Function.comp_apply, traceQ1]
    rw [traceCoeffs_fst, getD_map_range _ [] (List.mem_range.mp hj)]
  · rw [hc1, List.map_map]
    apply List.map_congr_left
    intro j _
    simp only [Function.comp_apply, traceQ1]
    exact traceCoeffs_fst _ _ _ _
  · rw [hc2, List.map_map]
    apply List.map_congr_left
    intro j _
    simp only [Function.comp_apply, traceQ1]
    exact traceCoeffs_snd _ _ _ _

/-- C6: InvalidParameter preconditions — `smooth` fails with
`InvalidParameter` iff σ ≤ 0; `localAutocorrelation` iff σ ≤ 0 or maxLag < 0;
`estimateCoefficients` and `applyQ1` iff the order is non-positive or the
grid has fewer than `order+1` samples along the recursion axis; and
cooperating buffers of mismatched shape also fail with `InvalidParameter`.
The failures are surfaced directly to the caller. -/
theorem invalidParameter_iff (g : Grid) (σ : ℚ) (maxLag order : ℤ)
    (cf : CoeffField) :
    (smoothChecked g σ = Except.error FilterError.InvalidParameter ↔ σ ≤ 0) ∧
    (localAutocorrelationChecked g maxLag σ
        = Except.error FilterError.InvalidParameter ↔ σ ≤ 0 ∨ maxLag < 0) ∧
    (estimateCoefficientsChecked g order σ
        = Except.error FilterError.InvalidParameter
      ↔ order ≤ 0 ∨ axisLength g < order.toNat + 1) ∧
    (applyQ1Checked order g σ = Except.error FilterError.InvalidParameter
      ↔ order ≤ 0 ∨ axisLength g < order.toNat + 1) ∧
    (applyForwardChecked cf g = Except.error FilterError.InvalidParameter
      ↔ coeffShape cf ≠ gridShape g) := by
  refine ⟨?_, ?_, ?_, ?_, ?_⟩ <;>
    · simp only [smoothChecked, localAutocorrelationChecked,
        estimateCoefficientsChecked, applyQ1Checked, applyForwardChecked]
      split <;> simp_all

/-- C9: Input immutability — each driver call writes only its designated
output buffers: `applyQ1` leaves `x` unchanged; `applyForward` leaves `x`,
`c1`, `c2` and `y` unchanged; `applyInverse` leaves `z` and the coefficient
buffers unchanged; so after the three calls of `doBurg` the original image
`x` and the coefficients produced by `applyQ1` are intact, exactly what the
driver's final comparison of `w` against `x` relies on. -/
theorem driver_frame (p : ℕ) (σ : ℚ) (s : DriverState) :
    (applyQ1Step p σ s).x = s.x ∧
    (applyForwardStep (applyQ1Step p σ s)).x = s.x ∧
    (doBurg p σ s).x = s.x ∧
    (applyForwardStep (applyQ1Step p σ s)).c1 = (applyQ1Step p σ s).c1 ∧
    (applyForwardStep (applyQ1Step p σ s)).c2 = (applyQ1Step p σ s).c2 ∧
    (applyForwardStep (applyQ1Step p σ s)).y = (applyQ1Step p σ s).y ∧
    (doBurg p σ s).c1 = (applyQ1Step p σ s).c1 ∧
    (doBurg p σ s).c2 = (applyQ1Step p σ s).c2 ∧
    (doBurg p σ s).y = (applyQ1Step p σ s).y ∧
    (doBurg p σ s).z = (applyForwardStep (applyQ1Step p σ s)).z :=
  ⟨rfl, rfl, rfl, rfl, rfl, rfl, rfl, rfl, rfl, rfl⟩

/-- C10: Image persistence round-trip — writing a grid of the configured
dimensions and reading it back with the same name and dimensions yields a
grid with exactly the same dimensions and sample values. -/
theorem image_roundtrip (g : Grid) (n1 n2 : ℕ) (hlen : g.length = n2)
    (hrows : ∀ row ∈ g, row.length = n1) :
    readImage n1 n2 (writeImage g) = g := by
  subst hlen
  unfold writeImage
  revert hrows
  induction g with
  | nil =>
    intro _
    simp [readImage]
  | cons row rest ih =>
    intro hrows
    have hrow : row.length = n1 := hrows row (List.mem_cons_self row rest)
    have hrest : ∀ r ∈ rest, r.length = n1 :=
      fun r hr => hrows r (List.mem_cons_of_mem row hr)
    unfold readImage
    rw [List.length_cons, List.range_succ_eq_map, List.map_cons, List.map_map]
    simp only [List.cons.injEq]
    constructor
    · simp only [Nat.zero_mul, List.drop_zero, List.flatten_cons]
      rw [← hrow]
      exact List.take_left row rest.flatten
    · have htail : ∀ j ∈ List.range rest.length,
          ((fun j : ℕ => (((row :: rest).flatten).drop (j * n1)).take n1)
            ∘ Nat.succ) j
            = ((rest.flatten.drop (j * n1)).take n1) := by
        intro j _
        simp only [Function.comp_apply, List.flatten_cons]
        have hmul : Nat.succ j * n1 = row.length + j * n1 := by
          rw [hrow, Nat.succ_mul, Nat.mul_comm j n1]
          exact Nat.add_comm _ _
        rw [hmul, List.drop_append]
      rw [List.map_congr_left htail]
      have hrec := ih hrest
      unfold readImage at hrec
      exact hrec

/-- Witness for C10 at a concrete grid and dimensions. -/
theorem image_roundtrip_witness :
    ([[1, 2], [3, 4]] : Grid).length = 2 ∧
    readImage 2 2 (writeImage [[1, 2], [3, 4]]) = [[1, 2], [3, 4]] :=
  ⟨rfl, image_roundtrip [[1, 2], [3, 4]] 2 2 rfl (by simp)⟩

theorem predictFrom_eq_sum (a : List ℚ) (x : List ℚ) (i : ℕ) :
    ∀ k0, predictFrom a x i k0
      = ∑ m ∈ Finset.range a.length, a.getD m 0 * lagSample x i (k0 + m) := by
  induction a with
  | nil =>
    intro k0
    simp [predictFrom]
  | cons c rest ih =>
    intro k0
    rw [List.length_cons, Finset.sum_range_succ']
    simp only [List.getD_cons_succ, List.getD_cons_zero, Nat.add_zero]
    simp only [predictFrom]
    rw [ih (k0 + 1)]
    have hsum : ∑ m ∈ Finset.range rest.length,
        rest.getD m 0 * lagSample x i (k0 + (m + 1))
        = ∑ m ∈ Finset.range rest.length,
            rest.getD m 0 * lagSample x i (k0 + 1 + m) :=
      Finset.sum_congr rfl (fun m _ => by
        rw [show k0 + (m + 1) = k0 + 1 + m from by ring])
    rw [hsum]
    ring

/-- C4: Forward transform definition — `applyForward` keeps the shape of the
input grid and returns at every pixel the prediction residual
`grid(x) − Σ_{k=1..p} a_k(x)·grid(x−k)` computed with the local coefficients
at that pixel along the recursion axis (missing predecessors taken as 0). -/
theorem applyForward_residual (cf : CoeffField) (g : Grid) (j i : ℕ)
    (hj : j < g.length) (hi : i < (g.getD j []).length) :
    (applyForward cf g).length = g.length ∧
    ((applyForward cf g).getD j []).length = (g.getD j []).length ∧
    ((applyForward cf g).getD j []).getD i 0
      = (g.getD j []).getD i 0
        - ∑ k ∈ Finset.Icc 1 ((cf.getD j []).getD i []).length,
            ((cf.getD j []).getD i []).getD (k - 1) 0
              * lagSample (g.getD j []) i k := by
  refine ⟨by simp [applyForward], ?_, ?_⟩
  · unfold applyForward
    rw [getD_map_range _ [] hj, forwardTrace_length]
  · unfold applyForward
    rw [getD_map_range _ [] hj, forwardTrace_getD _ _ hi]
    congr 1
    unfold predictAt
    rw [predictFrom_eq_sum ((cf.getD j []).getD i []) (g.getD j []) i 1]
    rw [← Nat.Ico_succ_right, Finset.sum_Ico_eq_sum_range]
    simp only [Nat.succ_sub_one]
    apply Finset.sum_congr rfl
    intro m _
    rw [Nat.add_sub_cancel_left]

/-- Witness for C4 at a concrete grid, coefficient field and pixel. -/
theorem applyForward_residual_witness :
    0 < ([[1, 2]] : Grid).length ∧
    1 < (([[1, 2]] : Grid).getD 0 []).length ∧
    ((applyForward [[[1/2], [1/2]]] [[1, 2]]).length
        = ([[1, 2]] : Grid).length ∧
      ((applyForward [[[1/2], [1/2]]] [[1, 2]]).getD 0 []).length
        = (([[1, 2]] : Grid).getD 0 []).length ∧
      ((applyForward [[[1/2], [1/2]]] [[1, 2]]).getD 0 []).getD 1 0
        = (([[1, 2]] : Grid).getD 0 []).getD 1 0
          - ∑ k ∈ Finset.Icc 1
                ((([[[1/2], [1/2]]] : CoeffField).getD 0 []).getD 1 []).length,
              ((([[[1/2], [1/2]]] : CoeffField).getD 0 []).getD 1 []).getD (k - 1) 0
                * lagSample (([[1, 2]] : Grid).getD 0 []) 1 k) :=
  ⟨by decide, by decide,
    applyForward_residual [[[1/2], [1/2]]] [[1, 2]] 0 1 (by decide) (by decide)⟩
